import Mathlib

/-!
# Verification of `bigint-secrets` (juanelas/bigint-secrets)

Shallow embedding of `src/main.js` (and of the bundled
`dist/bigint-secrets-latest.node.js`, which differs only in the
small-prime trial-division prefilter and the default iteration count).

Modelling conventions:
* JS `BigInt` values are modelled as `ℤ` (byte values and byte buffers,
  which are always non-negative, as `ℕ`).
* The cryptographically secure byte source (`crypto.randomFillSync`) is
  modelled as an infinite byte stream `s : ℕ → ℕ` together with a cursor
  position; each produced byte is `s i % 256`.
* `async` functions whose loops may run forever are modelled with an
  explicit fuel parameter and return `Option`: `none` models "the call
  has not returned (yet)"; a `some` result is a value actually returned
  by the JS code, whatever the entropy.
* JS `%` on BigInt is truncated remainder and `/` is truncated division.
  The code only compares remainders with `0` (where truncated and
  Euclidean remainder agree: both are zero exactly on divisors) and only
  divides in the exact case (where all division conventions agree), so
  we use Lean's `%`/`/` on `ℤ` (Euclidean).  The JS test `(w & 1n) === 0n`
  is two's-complement parity, i.e. exactly `w % 2 = 0`.
* JS `>>` on BigInt is an arithmetic shift, i.e. floor division: `Int.fdiv`.
-/

namespace BigintSecrets

/-- Modelled external dependency (`bigint-mod-arith`): `modPow(b, e, n)`,
modular exponentiation.  The library is assumed correct; all uses in this
repository have a non-negative exponent, where it computes `b ^ e % n`. -/
def modPow (b e n : ℤ) : ℤ :=
  b ^ e.toNat % n

/-- `fromBuffer(buf)` of `src/main.js`: big-endian conversion of a byte
buffer to an integer, by `ret = (ret << 8n) + BigInt(byte)` over the
bytes in order. -/
def fromBuffer (buf : List ℕ) : ℕ :=
  buf.foldl (fun ret i => ret * 256 + i) 0

/-- Loop of `bitLength(a)` of `src/main.js`.  State on entry: the running
`bits` counter and the current value of `a` (the shifted accumulator);
one more iteration runs whenever `a > 1`.  The fuel argument only bounds
the iteration count; `bitLength` below supplies enough fuel for every
input, so the `0` case is unreachable. -/
def bitLengthAux : ℕ → ℤ → ℕ → ℕ
  | 0, _, bits => bits
  | fuel + 1, a, bits =>
    if 1 < a then bitLengthAux fuel (Int.fdiv a 2) (bits + 1) else bits

/-- `bitLength(a)` of `src/main.js`:
`let bits = 1; do { bits++ } while ((a >>= 1n) > 1n); return bits`.
The first loop iteration unconditionally sets `bits = 2` and shifts `a`
once; afterwards the loop continues while the shifted value exceeds 1. -/
def bitLength (a : ℤ) : ℕ :=
  bitLengthAux (a.natAbs + 1) (Int.fdiv a 2) 2

/-- `randBytes(byteLength, forceLength)` of `src/main.js`, reading from
the byte stream `s` at cursor `pos`.  Returns the buffer and the new
cursor.  If `forceLength` is set, the most significant bit of the first
byte is forced to 1 (`buf[0] = buf[0] | 128`). -/
def randBytes (s : ℕ → ℕ) (pos byteLength : ℕ) (forceLength : Bool) :
    List ℕ × ℕ :=
  let buf := (List.range byteLength).map fun i => s (pos + i) % 256
  (if forceLength then
      match buf with
      | [] => []
      | b :: t => (b ||| 128) :: t
    else buf,
    pos + byteLength)

/-- Rejection-sampling loop of `randBetween(max, min)` of `src/main.js`.
`byteLength`, `remaining` and `extraBits` are the loop-invariant locals
computed before the loop; each iteration draws a fresh buffer, masks the
extra bits of the first byte when `remaining > 0`, converts big-endian,
and retries while `rnd > max || rnd < min`. -/
def randBetweenAux (max min : ℤ) (byteLength remaining extraBits : ℕ)
    (s : ℕ → ℕ) : ℕ → ℕ → Option (ℤ × ℕ)
  | 0, _ => none
  | fuel + 1, pos =>
    let br := randBytes s pos byteLength false
    let buf :=
      if 0 < remaining then
        match br.1 with
        | [] => []
        | b :: t => (b &&& extraBits) :: t
      else br.1
    let rnd : ℤ := (fromBuffer buf : ℕ)
    if rnd > max ∨ rnd < min then
      randBetweenAux max min byteLength remaining extraBits s fuel br.2
    else some (rnd, br.2)

/-- `randBetween(max, min)` of `src/main.js` (default `min = 1`): sets up
`bitLen`, `byteLength = bitLen >> 3`, `remaining` and the mask
`extraBits = 2 ** remaining - 1`, then runs the rejection-sampling loop. -/
def randBetween (max min : ℤ) (s : ℕ → ℕ) (pos fuel : ℕ) :
    Option (ℤ × ℕ) :=
  let bitLen := bitLength max
  let byteLength := bitLen / 8
  let remaining := bitLen - byteLength * 8
  if 0 < remaining then
    randBetweenAux max min (byteLength + 1) remaining (2 ^ remaining - 1)
      s fuel pos
  else
    randBetweenAux max min byteLength remaining 0 s fuel pos

lemma randBetweenAux_range (max min : ℤ) (bl rem eb : ℕ) (s : ℕ → ℕ) :
    ∀ fuel pos v pos',
      randBetweenAux max min bl rem eb s fuel pos = some (v, pos') →
      min ≤ v ∧ v ≤ max := by
  intro fuel
  induction fuel with
  | zero => intro pos v pos' h; simp [randBetweenAux] at h
  | succ n ih =>
    intro pos v pos' h
    rw [randBetweenAux] at h
    split at h
    all_goals split at h
    all_goals
      first
        | exact ih _ _ _ h
        | (rename_i hc
           push_neg at hc
           simp only [Option.some.injEq, Prod.mk.injEq] at h
           obtain ⟨rfl, rfl⟩ := h
           exact ⟨hc.2, hc.1⟩)

lemma randBetween_range (max min : ℤ) (s : ℕ → ℕ) (pos fuel : ℕ)
    (v : ℤ) (pos' : ℕ)
    (h : randBetween max min s pos fuel = some (v, pos')) :
    min ≤ v ∧ v ≤ max := by
  rw [randBetween] at h
  split at h
  · exact randBetweenAux_range _ _ _ _ _ _ _ _ _ _ h
  · exact randBetweenAux_range _ _ _ _ _ _ _ _ _ _ h

/-- C1: for all integers `max ≥ min ≥ 0`, every value `v` actually
returned by `randBetween(max, min)` satisfies `min ≤ v ≤ max`
(inclusive on both ends); in particular with `min = 1` the result is
always `≥ 1`. -/
theorem c1_randBetween_range (max min : ℤ) (_hmin : 0 ≤ min)
    (_hle : min ≤ max) (s : ℕ → ℕ) (pos fuel : ℕ) (v : ℤ) (pos' : ℕ)
    (h : randBetween max min s pos fuel = some (v, pos')) :
    min ≤ v ∧ v ≤ max :=
  randBetween_range max min s pos fuel v pos' h

/-- Witness for C1 at `max = 3`, `min = 1`, with a stream of `2`-bytes:
the sampler returns `2`, which lies in `[1, 3]`. -/
theorem c1_randBetween_range_witness :
    (0 : ℤ) ≤ 1 ∧ (1 : ℤ) ≤ 3 ∧
      randBetween 3 1 (fun _ => 2) 0 1 = some (2, 1) ∧
      ((1 : ℤ) ≤ 2 ∧ (2 : ℤ) ≤ 3) :=
  ⟨by decide, by decide, by decide,
    c1_randBetween_range 3 1 (by decide) (by decide) (fun _ => 2) 0 1 2 1
      (by decide)⟩

/-- Modelled from the spec: the repository has no inverse byte encoder;
the spec's §8 round-trip property speaks of the "reconstructed byte
sequence of same length" under big-endian interpretation (most
significant byte first).  `toBuffer n v` is that spec-side encoder. -/
def toBuffer : ℕ → ℕ → List ℕ
  | 0, _ => []
  | n + 1, v => v / 256 ^ n % 256 :: toBuffer n (v % 256 ^ n)

lemma fromBuffer_foldl (l : List ℕ) (r : ℕ) :
    l.foldl (fun ret i => ret * 256 + i) r =
      r * 256 ^ l.length + fromBuffer l := by
  induction l generalizing r with
  | nil => simp [fromBuffer]
  | cons b t ih =>
    simp only [List.foldl_cons, List.length_cons, fromBuffer]
    rw [ih (r * 256 + b), ih (0 * 256 + b)]
    ring

lemma fromBuffer_cons (b : ℕ) (t : List ℕ) :
    fromBuffer (b :: t) = b * 256 ^ t.length + fromBuffer t := by
  have := fromBuffer_foldl t b
  simpa [fromBuffer] using this

lemma fromBuffer_lt (l : List ℕ) (h : ∀ b ∈ l, b < 256) :
    fromBuffer l < 256 ^ l.length := by
  induction l with
  | nil => simp [fromBuffer]
  | cons b t ih =>
    rw [fromBuffer_cons]
    have hb : b < 256 := h b (by simp)
    have ht : fromBuffer t < 256 ^ t.length := ih fun x hx => h x (by simp [hx])
    calc b * 256 ^ t.length + fromBuffer t
        < b * 256 ^ t.length + 256 ^ t.length := by omega
      _ = (b + 1) * 256 ^ t.length := by ring
      _ ≤ 256 * 256 ^ t.length := by
          exact Nat.mul_le_mul_right _ (by omega)
      _ = 256 ^ (b :: t).length := by rw [List.length_cons]; ring

lemma fromBuffer_eq_sum (l : List ℕ) :
    fromBuffer l =
      ∑ i ∈ Finset.range l.length, l.getD i 0 * 256 ^ (l.length - 1 - i) := by
  induction l with
  | nil => simp [fromBuffer]
  | cons b t ih =>
    rw [fromBuffer_cons, List.length_cons, Finset.sum_range_succ']
    have h0 : (b :: t).getD 0 0 * 256 ^ (t.length + 1 - 1 - 0) =
        b * 256 ^ t.length := by simp
    have hs : ∀ i ∈ Finset.range t.length,
        (b :: t).getD (i + 1) 0 * 256 ^ (t.length + 1 - 1 - (i + 1)) =
          t.getD i 0 * 256 ^ (t.length - 1 - i) := by
      intro i hi
      simp only [List.getD_cons_succ]
      congr 2
      omega
    rw [Finset.sum_congr rfl hs, h0, ← ih]
    omega

lemma toBuffer_fromBuffer (l : List ℕ) (h : ∀ b ∈ l, b < 256) :
    toBuffer l.length (fromBuffer l) = l := by
  induction l with
  | nil => simp [fromBuffer, toBuffer]
  | cons b t ih =>
    have hb : b < 256 := h b (by simp)
    have ht : fromBuffer t < 256 ^ t.length := by
      exact fromBuffer_lt t fun x hx => h x (by simp [hx])
    rw [List.length_cons, fromBuffer_cons, toBuffer]
    have hdiv : (b * 256 ^ t.length + fromBuffer t) / 256 ^ t.length = b := by
      rw [Nat.mul_comm b, Nat.mul_add_div (Nat.pos_pow_of_pos _ (by omega)),
        Nat.div_eq_of_lt ht]
      omega
    have hmod : (b * 256 ^ t.length + fromBuffer t) % 256 ^ t.length =
        fromBuffer t := by
      rw [Nat.mul_comm b, Nat.mul_add_mod, Nat.mod_eq_of_lt ht]
    rw [hdiv, hmod, Nat.mod_eq_of_lt hb, ih fun x hx => h x (by simp [hx])]

/-- C8: `fromBuffer` interprets a byte sequence big-endian: it equals
`Σ buf[i] * 256 ^ (n - 1 - i)`, is bounded by `256 ^ n`, and re-encoding
the value as `n` big-endian bytes round-trips to the original buffer. -/
theorem c8_fromBuffer_bigEndian (buf : List ℕ) (h : ∀ b ∈ buf, b < 256) :
    fromBuffer buf =
        (∑ i ∈ Finset.range buf.length,
          buf.getD i 0 * 256 ^ (buf.length - 1 - i)) ∧
      fromBuffer buf < 256 ^ buf.length ∧
      toBuffer buf.length (fromBuffer buf) = buf :=
  ⟨fromBuffer_eq_sum buf, fromBuffer_lt buf h, toBuffer_fromBuffer buf h⟩

/-- Witness for C8 at the concrete buffer `[1, 2]`:
`fromBuffer [1, 2] = 258`, which is the big-endian sum, below `256 ^ 2`,
and decodes back to `[1, 2]`. -/
theorem c8_fromBuffer_bigEndian_witness :
    (∀ b ∈ [1, 2], b < 256) ∧
      (fromBuffer [1, 2] =
          (∑ i ∈ Finset.range ([1, 2] : List ℕ).length,
            ([1, 2] : List ℕ).getD i 0 *
              256 ^ (([1, 2] : List ℕ).length - 1 - i)) ∧
        fromBuffer [1, 2] < 256 ^ ([1, 2] : List ℕ).length ∧
        toBuffer ([1, 2] : List ℕ).length (fromBuffer [1, 2]) = [1, 2]) :=
  ⟨by decide, c8_fromBuffer_bigEndian [1, 2] (by decide)⟩

lemma bitLengthAux_eq_log (fuel : ℕ) :
    ∀ a : ℤ, ∀ bits : ℕ, 1 ≤ a → a.toNat ≤ fuel →
      bitLengthAux fuel a bits = bits + Nat.log 2 a.toNat := by
  induction fuel with
  | zero => intro a bits h1 hf; omega
  | succ n ih =>
    intro a bits h1 hf
    rw [bitLengthAux]
    by_cases hlt : 1 < a
    · rw [if_pos hlt, Int.fdiv_eq_ediv _ (by norm_num)]
      have hdiv : (a / 2).toNat = a.toNat / 2 := by omega
      have h2 : 2 ≤ a.toNat := by omega
      have hrec := ih (a / 2) (bits + 1) (by omega) (by omega)
      rw [hrec, hdiv]
      have hlog : Nat.log 2 (a.toNat / 2) = Nat.log 2 a.toNat - 1 :=
        Nat.log_div_base 2 a.toNat
      have hpos : 0 < Nat.log 2 a.toNat := Nat.log_pos (by omega) h2
      omega
    · rw [if_neg hlt]
      have : a = 1 := by omega
      subst this
      simp

/-- C7 (amended): `bitLength(v) = 1 + floor(log2 v)` holds for every
`v ≥ 2`; for every `v ≤ 1` — including `v = 1`, `v = 0` and all
negative `v` — the do-while loop returns the degenerate value `2`
(not `1`). -/
theorem c7_bitLength_amended (v : ℤ) :
    (2 ≤ v → bitLength v = 1 + Nat.log 2 v.toNat) ∧
      (v ≤ 1 → bitLength v = 2) := by
  constructor
  · intro h2
    rw [bitLength, Int.fdiv_eq_ediv _ (by norm_num)]
    have hdiv : (v / 2).toNat = v.toNat / 2 := by omega
    have h1 : 1 ≤ v / 2 := by omega
    have hf : (v / 2).toNat ≤ v.natAbs + 1 := by
      rw [hdiv]
      omega
    rw [bitLengthAux_eq_log _ _ _ h1 hf, hdiv]
    have hlog : Nat.log 2 (v.toNat / 2) = Nat.log 2 v.toNat - 1 :=
      Nat.log_div_base 2 v.toNat
    have hpos : 0 < Nat.log 2 v.toNat := Nat.log_pos (by omega) (by omega)
    omega
  · intro h1
    rw [bitLength, bitLengthAux, if_neg]
    rw [Int.fdiv_eq_ediv _ (by norm_num)]
    omega

/-- Witness for C7's amended statement at `v = 4` and `v = 1`:
`bitLength 4 = 3 = 1 + log2 4`, while `bitLength 1 = 2`. -/
theorem c7_bitLength_amended_witness :
    ((2 : ℤ) ≤ 4 ∧ bitLength 4 = 1 + Nat.log 2 (4 : ℤ).toNat) ∧
      ((1 : ℤ) ≤ 1 ∧ bitLength 1 = 2) :=
  ⟨⟨by decide, (c7_bitLength_amended 4).1 (by decide)⟩,
    ⟨by decide, (c7_bitLength_amended 1).2 (by decide)⟩⟩

/-- Counterexample to C7 as stated: the claim's formula predicts
`bitLength 1 = 1 + floor(log2 1) = 1` and `bitLength 0 = 1`, but the
legacy loop returns `2` in both cases. -/
theorem c7_bitLength_counterexample :
    bitLength 1 = 2 ∧ 1 + Nat.log 2 (1 : ℤ).toNat = 1 ∧
      bitLength 0 = 2 ∧ bitLength 0 ≠ 1 := by
  refine ⟨by decide, ?_, by decide, by decide⟩
  simp

/-- Loop `while (d % 2n === 0n) { d /= 2n; ++a }` of `isProbablyPrime`:
splits the largest power of two out of `d`, returning `(a, d)`.  The fuel
only bounds the iteration count; every caller supplies
`d.natAbs + 1`, which is sufficient for every `d ≠ 0` (the only value the
filtered code can pass; at `d = 0` the JS loop would not terminate, but
`d = 0` means `w = 1`, rejected by the prefilter). -/
def twoFactorAux : ℕ → ℤ → ℕ → ℕ × ℤ
  | 0, d, a => (a, d)
  | fuel + 1, d, a =>
    if d % 2 = 0 then twoFactorAux fuel (d / 2) (a + 1) else (a, d)

/-- Inner squaring loop `for (let j = 1; j < a; j++)` of one
Miller-Rabin round, entered with the current `z` and `a - 1` remaining
iterations.  Result `true` means the round passed (`z` reached `w - 1`,
the JS `continue loop`); `false` means the JS control flow falls through
to `return false` (either `z` cycled to `1`, the `break`, or the loop
ended without reaching `w - 1`). -/
def mrInner (w : ℤ) : ℤ → ℕ → Bool
  | _, 0 => false
  | z, k + 1 =>
    let z2 := modPow z 2 w
    if z2 = w - 1 then true
    else if z2 = 1 then false
    else mrInner w z2 k

/-- The labelled loop `loop: do { ... } while (--iterations)` of
`isProbablyPrime`.  The counter argument is the JS `iterations` value:
in JS, `continue` inside a do-while jumps to the condition, so
`--iterations` runs once per round whether the round passed via the
early `continue`, via `continue loop`, or fell through.  Per round one
witness `b = randBetween(w - 1n, 2)` is drawn.  A counter of `0` models
the JS divergence for `iterations <= 0` (the decrement never reaches 0):
no value is returned. -/
def mrLoop (w m : ℤ) (a : ℕ) (s : ℕ → ℕ) (rbFuel : ℕ) :
    ℕ → ℕ → Option (Bool × ℕ)
  | 0, _ => none
  | it + 1, pos =>
    match randBetween (w - 1) 2 s pos rbFuel with
    | none => none
    | some (b, pos') =>
      let z := modPow b m w
      if z = 1 ∨ z = w - 1 then
        if it = 0 then some (true, pos') else mrLoop w m a s rbFuel it pos'
      else if mrInner w z (a - 1) then
        if it = 0 then some (true, pos') else mrLoop w m a s rbFuel it pos'
      else some (false, pos')

namespace Main

/-- `isProbablyPrime(w, iterations)` of `src/main.js`: prefilter
(`w === 2n` is prime; even or `1n` is composite), then the FIPS 186-4
C.3.1 Miller-Rabin loop with `a` the 2-adic valuation of `w - 1` and
`m = (w - 1n) / 2n ** a`. -/
def isProbablyPrime (w : ℤ) (iterations : ℕ) (s : ℕ → ℕ)
    (pos rbFuel : ℕ) : Option (Bool × ℕ) :=
  if w = 2 then some (true, pos)
  else if w % 2 = 0 ∨ w = 1 then some (false, pos)
  else
    let a := (twoFactorAux ((w - 1).natAbs + 1) (w - 1) 0).1
    let m := (w - 1) / 2 ^ a
    mrLoop w m a s rbFuel iterations pos

/-- `prime(bitLength, iterations)` of `src/main.js`: draw
`bitLength / 8` forced-top-bit random bytes, convert big-endian, and
retry until `isProbablyPrime` accepts.  The fuel bounds the number of
generate-and-test attempts. -/
def prime (bitLength iterations : ℕ) (s : ℕ → ℕ) (rbFuel : ℕ) :
    ℕ → ℕ → Option (ℕ × ℕ)
  | 0, _ => none
  | fuel + 1, pos =>
    let br := randBytes s pos (bitLength / 8) true
    let rnd := fromBuffer br.1
    match isProbablyPrime (rnd : ℤ) iterations s br.2 rbFuel with
    | some (true, pos2) => some (rnd, pos2)
    | some (false, pos2) => prime bitLength iterations s rbFuel fuel pos2
    | none => none

end Main

/-- C3: `isProbablyPrime(2)` returns true, `isProbablyPrime(1)` returns
false, and every even `w ≠ 2` returns false, for any iterations
argument and any entropy; the prefilter never classifies 2 as composite
nor 1 as prime. -/
theorem c3_prefilter (iterations : ℕ) (s : ℕ → ℕ) (pos rbFuel : ℕ) :
    Main.isProbablyPrime 2 iterations s pos rbFuel = some (true, pos) ∧
      Main.isProbablyPrime 1 iterations s pos rbFuel = some (false, pos) ∧
      ∀ w : ℤ, w % 2 = 0 → w ≠ 2 →
        Main.isProbablyPrime w iterations s pos rbFuel =
          some (false, pos) := by
  refine ⟨by rw [Main.isProbablyPrime]; simp, ?_, ?_⟩
  · rw [Main.isProbablyPrime]
    norm_num
  · intro w heven hne
    rw [Main.isProbablyPrime, if_neg hne, if_pos (Or.inl heven)]

/-- Witness for C3 at `iterations = 41`, the zero stream, and the even
composite `w = 4`. -/
theorem c3_prefilter_witness :
    Main.isProbablyPrime 2 41 (fun _ => 0) 0 0 = some (true, 0) ∧
      Main.isProbablyPrime 1 41 (fun _ => 0) 0 0 = some (false, 0) ∧
      ((4 : ℤ) % 2 = 0 ∧ (4 : ℤ) ≠ 2 ∧
        Main.isProbablyPrime 4 41 (fun _ => 0) 0 0 = some (false, 0)) :=
  ⟨(c3_prefilter 41 (fun _ => 0) 0 0).1,
    (c3_prefilter 41 (fun _ => 0) 0 0).2.1,
    by decide, by decide,
    (c3_prefilter 41 (fun _ => 0) 0 0).2.2 4 (by decide) (by decide)⟩

/-- C5: the random witness of each Miller-Rabin round of
`isProbablyPrime` is obtained as `randBetween(w - 1n, 2)` — exactly the
expression `mrLoop` evaluates once per round — and every value it
returns satisfies `2 ≤ b ≤ w - 1`: the upper bound `w - 1` is admitted,
not excluded. -/
theorem c5_witness_range (w : ℤ) (s : ℕ → ℕ) (pos rbFuel : ℕ) (b : ℤ)
    (pos' : ℕ)
    (h : randBetween (w - 1) 2 s pos rbFuel = some (b, pos')) :
    2 ≤ b ∧ b ≤ w - 1 :=
  randBetween_range (w - 1) 2 s pos rbFuel b pos' h

/-- Witness for C5 at `w = 5` with a stream of `3`-bytes: the draw
returns `b = 3` with `2 ≤ 3 ≤ 4`. -/
theorem c5_witness_range_witness :
    randBetween ((5 : ℤ) - 1) 2 (fun _ => 3) 0 1 = some (3, 1) ∧
      ((2 : ℤ) ≤ 3 ∧ (3 : ℤ) ≤ (5 : ℤ) - 1) :=
  ⟨by decide,
    c5_witness_range 5 (fun _ => 3) 0 1 3 1 (by decide)⟩

lemma randBetweenAux_none_of_neg (max min : ℤ) (hmax : max < 0)
    (bl rem eb : ℕ) (s : ℕ → ℕ) :
    ∀ fuel pos, randBetweenAux max min bl rem eb s fuel pos = none := by
  intro fuel
  induction fuel with
  | zero => intro pos; rw [randBetweenAux]
  | succ n ih =>
    intro pos
    rw [randBetweenAux, if_pos, ih]
    exact Or.inl (lt_of_lt_of_le hmax (Int.ofNat_nonneg _))

lemma randBetween_none_of_neg (max min : ℤ) (hmax : max < 0) (s : ℕ → ℕ)
    (pos fuel : ℕ) : randBetween max min s pos fuel = none := by
  rw [randBetween]
  split
  · exact randBetweenAux_none_of_neg max min hmax _ _ _ s fuel pos
  · exact randBetweenAux_none_of_neg max min hmax _ _ _ s fuel pos

lemma mrLoop_none_of_neg (w m : ℤ) (a : ℕ) (s : ℕ → ℕ) (rbFuel : ℕ)
    (hw : w - 1 < 0) :
    ∀ it pos, mrLoop w m a s rbFuel it pos = none := by
  intro it pos
  cases it with
  | zero => rw [mrLoop]
  | succ n =>
    rw [mrLoop, randBetween_none_of_neg (w - 1) 2 hw s pos rbFuel]

/-- C6 (amended): for `w ≤ 1`, the call terminates with Composite
exactly when `w` is even or `w = 1` (covering `w = 0`, `w = 1` and all
even negatives), consuming no entropy; for odd `w < 0` the
witness-sampling loop rejects every draw (`rnd ≥ 0 > w - 1`), so no
verdict is ever returned. -/
theorem c6_small_inputs_amended (w : ℤ) (iterations : ℕ) (s : ℕ → ℕ)
    (pos rbFuel : ℕ) (hw : w ≤ 1) :
    ((w % 2 = 0 ∨ w = 1) →
        Main.isProbablyPrime w iterations s pos rbFuel =
          some (false, pos)) ∧
      (w % 2 = 1 → w ≠ 1 →
        Main.isProbablyPrime w iterations s pos rbFuel = none) := by
  constructor
  · intro h
    rw [Main.isProbablyPrime, if_neg (by omega), if_pos h]
  · intro hodd hne
    rw [Main.isProbablyPrime, if_neg (by omega), if_neg (by omega)]
    exact mrLoop_none_of_neg w _ _ s rbFuel (by omega) iterations pos

/-- Witness for C6's amended statement at `w = 0` and `w = -3`. -/
theorem c6_small_inputs_amended_witness :
    ((0 : ℤ) ≤ 1 ∧
        Main.isProbablyPrime 0 41 (fun _ => 0) 0 3 = some (false, 0)) ∧
      ((-3 : ℤ) ≤ 1 ∧
        Main.isProbablyPrime (-3) 41 (fun _ => 0) 0 3 = none) :=
  ⟨⟨by decide,
      (c6_small_inputs_amended 0 41 (fun _ => 0) 0 3 (by decide)).1
        (Or.inl (by decide))⟩,
    ⟨by decide,
      (c6_small_inputs_amended (-3) 41 (fun _ => 0) 0 3 (by decide)).2
        (by decide) (by decide)⟩⟩

/-- No verdict is ever returned for the input `w`, whatever the
iteration count, entropy stream, cursor or fuel: the modelled call
diverges. -/
def neverReturns (w : ℤ) : Prop :=
  ∀ iterations : ℕ, ∀ s : ℕ → ℕ, ∀ pos rbFuel : ℕ,
    Main.isProbablyPrime w iterations s pos rbFuel = none

/-- Counterexample to C6 as stated: at the odd negative input `w = -3`
(which is `≤ 1`), `isProbablyPrime` never terminates —
`randBetween(w - 1n, 2)` rejects every sample since `rnd ≥ 0 > w - 1` —
so it does not return Composite. -/
theorem c6_counterexample : neverReturns (-3) := by
  intro iterations s pos rbFuel
  rw [Main.isProbablyPrime, if_neg (by omega), if_neg (by omega)]
  exact mrLoop_none_of_neg (-3) _ _ s rbFuel (by omega) iterations pos

lemma randBytes_forced_shape (s : ℕ → ℕ) (pos k : ℕ) (hk : 0 < k) :
    ∃ b t, (randBytes s pos k true).1 = b :: t ∧ 128 ≤ b ∧ b < 256 ∧
      (∀ x ∈ t, x < 256) ∧ t.length = k - 1 := by
  obtain ⟨k', rfl⟩ := Nat.exists_eq_succ_of_ne_zero hk.ne'
  rw [randBytes]
  simp only [List.range_succ_eq_map, List.map_cons]
  refine ⟨s (pos + 0) % 256 ||| 128, _, rfl, ?_, ?_, ?_, ?_⟩
  · exact Nat.le_of_testBit fun i h => by simp_all
  · have h1 : s (pos + 0) % 256 < 2 ^ 8 := Nat.mod_lt _ (by norm_num)
    have h2 : (128 : ℕ) < 2 ^ 8 := by norm_num
    exact Nat.or_lt_two_pow h1 h2
  · intro x hx
    simp only [List.mem_map, List.mem_range] at hx
    obtain ⟨i, _, rfl⟩ := hx
    exact Nat.mod_lt _ (by omega)
  · simp

lemma fromBuffer_forced_bounds (s : ℕ → ℕ) (pos k : ℕ) (hk : 0 < k) :
    2 ^ (8 * k - 1) ≤ fromBuffer (randBytes s pos k true).1 ∧
      fromBuffer (randBytes s pos k true).1 < 2 ^ (8 * k) := by
  obtain ⟨b, t, hbt, hb1, hb2, ht, hlen⟩ := randBytes_forced_shape s pos k hk
  rw [hbt, fromBuffer_cons]
  have hFt : fromBuffer t < 256 ^ t.length := fromBuffer_lt t ht
  have h256 : (256 : ℕ) ^ t.length = 2 ^ (8 * t.length) := by
    rw [show (256 : ℕ) = 2 ^ 8 from rfl, ← pow_mul]
  constructor
  · calc 2 ^ (8 * k - 1) = 2 ^ 7 * 2 ^ (8 * t.length) := by
          rw [← pow_add]
          congr 1
          omega
      _ = 128 * 256 ^ t.length := by rw [h256]; norm_num
      _ ≤ b * 256 ^ t.length := Nat.mul_le_mul_right _ hb1
      _ ≤ b * 256 ^ t.length + fromBuffer t := Nat.le_add_right _ _
  · calc b * 256 ^ t.length + fromBuffer t
        < b * 256 ^ t.length + 256 ^ t.length := by omega
      _ = (b + 1) * 256 ^ t.length := by ring
      _ ≤ 256 * 256 ^ t.length := Nat.mul_le_mul_right _ (by omega)
      _ = 2 ^ 8 * 2 ^ (8 * t.length) := by rw [h256]; norm_num
      _ = 2 ^ (8 * k) := by
          rw [← pow_add]
          congr 1
          omega

/-- C2: every value actually returned by `prime(bitLength, iterations)`,
for a positive multiple-of-8 bit length, lies in
`[2^(bitLength-1), 2^bitLength)` — the forced top bit of the first
sampled byte makes the bit length exact — and was accepted by
`isProbablyPrime` (some call on it returned true). -/
theorem c2_prime_bitLength (bitLen iterations : ℕ) (hmul : bitLen % 8 = 0)
    (hpos : 0 < bitLen) (s : ℕ → ℕ) (rbFuel : ℕ) :
    ∀ fuel pos v pend,
      Main.prime bitLen iterations s rbFuel fuel pos = some (v, pend) →
      2 ^ (bitLen - 1) ≤ v ∧ v < 2 ^ bitLen ∧
        ∃ p1 p2, Main.isProbablyPrime (v : ℤ) iterations s p1 rbFuel =
          some (true, p2) := by
  intro fuel
  induction fuel with
  | zero => intro pos v pend h; rw [Main.prime] at h; cases h
  | succ n ih =>
    intro pos v pend h
    rw [Main.prime] at h
    split at h
    · rename_i pos2 heq
      simp only [Option.some.injEq, Prod.mk.injEq] at h
      obtain ⟨rfl, rfl⟩ := h
      have hk : 0 < bitLen / 8 := by omega
      have hb := fromBuffer_forced_bounds s pos (bitLen / 8) hk
      have h8 : 8 * (bitLen / 8) = bitLen := by omega
      rw [h8] at hb
      exact ⟨hb.1, hb.2, _, pos2, heq⟩
    · exact ih _ _ _ h
    · cases h

/-- Witness for C2 at `bitLength = 8`, `iterations = 1`: with a stream
whose first byte is 131 and whose later bytes are 100, `prime` returns
`131`, which lies in `[2^7, 2^8)`, and the recorded `isProbablyPrime`
call accepted it. -/
theorem c2_prime_bitLength_witness :
    8 % 8 = 0 ∧ 0 < 8 ∧
      Main.prime 8 1 (fun n => if n = 0 then 131 else 100) 1 1 0 =
        some (131, 2) ∧
      (2 ^ (8 - 1) ≤ 131 ∧ 131 < 2 ^ 8 ∧
        ∃ p1 p2,
          Main.isProbablyPrime ((131 : ℕ) : ℤ) 1
            (fun n => if n = 0 then 131 else 100) p1 1 = some (true, p2)) :=
  ⟨by decide, by decide, by decide,
    c2_prime_bitLength 8 1 (by decide) (by decide)
      (fun n => if n = 0 then 131 else 100) 1 1 0 131 2 (by decide)⟩

/-- Spec-side instrumented copy of `mrLoop` that additionally reports
how many rounds (one witness draw each) were consumed; only used to
state and prove C9 about the round-counting behaviour of the loop. -/
def mrLoopRounds (w m : ℤ) (a : ℕ) (s : ℕ → ℕ) (rbFuel : ℕ) :
    ℕ → ℕ → Option (Bool × ℕ × ℕ)
  | 0, _ => none
  | it + 1, pos =>
    match randBetween (w - 1) 2 s pos rbFuel with
    | none => none
    | some (b, pos') =>
      let z := modPow b m w
      if z = 1 ∨ z = w - 1 then
        if it = 0 then some (true, pos', 1)
        else
          match mrLoopRounds w m a s rbFuel it pos' with
          | none => none
          | some (v, p, c) => some (v, p, c + 1)
      else if mrInner w z (a - 1) then
        if it = 0 then some (true, pos', 1)
        else
          match mrLoopRounds w m a s rbFuel it pos' with
          | none => none
          | some (v, p, c) => some (v, p, c + 1)
      else some (false, pos', 1)

lemma mrLoop_total (w m : ℤ) (a : ℕ) (s : ℕ → ℕ) (rbFuel : ℕ)
    (hdraw : ∀ q, randBetween (w - 1) 2 s q rbFuel ≠ none) :
    ∀ it pos, 0 < it → mrLoop w m a s rbFuel it pos ≠ none := by
  intro it
  induction it with
  | zero => intro pos h; omega
  | succ n ih =>
    intro pos _
    rw [mrLoop]
    rcases hq : randBetween (w - 1) 2 s pos rbFuel with _ | ⟨b, pos'⟩
    · exact absurd hq (hdraw pos)
    · simp only []
      split
      · split
        · simp
        · exact ih pos' (by omega)
      · split
        · split
          · simp
          · exact ih pos' (by omega)
        · simp

lemma mrLoop_rounds_agree (w m : ℤ) (a : ℕ) (s : ℕ → ℕ) (rbFuel : ℕ) :
    ∀ it pos v p, mrLoop w m a s rbFuel it pos = some (v, p) →
      ∃ c, mrLoopRounds w m a s rbFuel it pos = some (v, p, c) ∧
        1 ≤ c ∧ c ≤ it ∧ (v = true → c = it) := by
  intro it
  induction it with
  | zero => intro pos v p h; rw [mrLoop] at h; cases h
  | succ n ih =>
    intro pos v p h
    rw [mrLoop] at h
    rw [mrLoopRounds]
    rcases hq : randBetween (w - 1) 2 s pos rbFuel with _ | ⟨b, pos'⟩
    · rw [hq] at h; cases h
    · rw [hq] at h
      simp only [] at h ⊢
      split at h
      · rename_i hz
        rw [if_pos hz]
        split at h
        · rename_i hn0
          rw [if_pos hn0]
          simp only [Option.some.injEq, Prod.mk.injEq] at h
          obtain ⟨rfl, rfl⟩ := h
          exact ⟨1, rfl, by omega, by omega, fun _ => by omega⟩
        · rename_i hn0
          rw [if_neg hn0]
          obtain ⟨c, hc, h1, h2, h3⟩ := ih pos' v p h
          rw [hc]
          exact ⟨c + 1, rfl, by omega, by omega, fun hv => by
            have := h3 hv; omega⟩
      · rename_i hz
        rw [if_neg hz]
        split at h
        · rename_i hinner
          rw [if_pos hinner]
          split at h
          · rename_i hn0
            rw [if_pos hn0]
            simp only [Option.some.injEq, Prod.mk.injEq] at h
            obtain ⟨rfl, rfl⟩ := h
            exact ⟨1, rfl, by omega, by omega, fun _ => by omega⟩
          · rename_i hn0
            rw [if_neg hn0]
            obtain ⟨c, hc, h1, h2, h3⟩ := ih pos' v p h
            rw [hc]
            exact ⟨c + 1, rfl, by omega, by omega, fun hv => by
              have := h3 hv; omega⟩
        · rename_i hinner
          rw [if_neg hinner]
          simp only [Option.some.injEq, Prod.mk.injEq] at h
          obtain ⟨rfl, rfl⟩ := h
          exact ⟨1, rfl, by omega, by omega, fun hv => by cases hv⟩

/-- C9: for `iterations ≥ 1`, the round loop terminates within
`iterations` rounds whenever every witness draw returns: if the verdict
is ProbablyPrime then exactly `iterations` witnesses were drawn (the
counter reached zero), and a Composite verdict is produced within the
round that found the evidence (after at most `iterations` draws). -/
theorem c9_round_counting (w m : ℤ) (a : ℕ) (s : ℕ → ℕ)
    (rbFuel it pos : ℕ) (hit : 1 ≤ it) :
    ((∀ q, randBetween (w - 1) 2 s q rbFuel ≠ none) →
        mrLoop w m a s rbFuel it pos ≠ none) ∧
      ∀ v p, mrLoop w m a s rbFuel it pos = some (v, p) →
        ∃ c, mrLoopRounds w m a s rbFuel it pos = some (v, p, c) ∧
          1 ≤ c ∧ c ≤ it ∧ (v = true → c = it) :=
  ⟨fun hdraw => mrLoop_total w m a s rbFuel hdraw it pos (by omega),
    fun v p => mrLoop_rounds_agree w m a s rbFuel it pos v p⟩

/-- Witness for C9 at `w = 5`, `m = 1`, `a = 2`, two iterations, with a
stream of `3`-bytes: both rounds pass, exactly two witnesses are drawn,
and the verdict is ProbablyPrime. -/
theorem c9_round_counting_witness :
    1 ≤ 2 ∧
      mrLoop 5 1 2 (fun _ => 3) 1 2 0 ≠ none ∧
      ∃ c, mrLoopRounds 5 1 2 (fun _ => 3) 1 2 0 = some (true, 2, c) ∧
        1 ≤ c ∧ c ≤ 2 ∧ (true = true → c = 2) := by
  have hdraw : ∀ q, randBetween ((5 : ℤ) - 1) 2 (fun _ => 3) q 1 ≠ none := by
    intro q
    have step : randBetween ((5 : ℤ) - 1) 2 (fun _ => 3) q 1 =
        randBetweenAux ((5 : ℤ) - 1) 2 1 3 7 (fun _ => 3) 1 q := rfl
    rw [step, randBetweenAux]
    simp [randBytes, fromBuffer, List.range_succ,
      show (3 : ℕ) &&& 7 = 3 from by decide]
  refine ⟨by omega,
    (c9_round_counting 5 1 2 (fun _ => 3) 1 2 0 (by omega)).1 hdraw,
    (c9_round_counting 5 1 2 (fun _ => 3) 1 2 0 (by omega)).2 true 2
      (by decide)⟩

namespace Dist

/-- `firstPrimes` of `dist/bigint-secrets-latest.node.js`: the fixed
ordered table of the 250 small primes 3, 5, 7, ..., 1597 used by the
trial-division prefilter of that bundle's `isProbablyPrime` (2 is
excluded: even inputs were already rejected by the prefilter). -/
def firstPrimes : List ℕ := [3, 5, 7, 11, 13, 17, 19, 23, 29, 31, 37, 41, 43, 47, 53, 59, 61, 67, 71, 73, 79, 83, 89, 97, 101, 103, 107, 109, 113, 127, 131, 137, 139, 149, 151, 157, 163, 167, 173, 179, 181, 191, 193, 197, 199, 211, 223, 227, 229, 233, 239, 241, 251, 257, 263, 269, 271, 277, 281, 283, 293, 307, 311, 313, 317, 331, 337, 347, 349, 353, 359, 367, 373, 379, 383, 389, 397, 401, 409, 419, 421, 431, 433, 439, 443, 449, 457, 461, 463, 467, 479, 487, 491, 499, 503, 509, 521, 523, 541, 547, 557, 563, 569, 571, 577, 587, 593, 599, 601, 607, 613, 617, 619, 631, 641, 643, 647, 653, 659, 661, 673, 677, 683, 691, 701, 709, 719, 727, 733, 739, 743, 751, 757, 761, 769, 773, 787, 797, 809, 811, 821, 823, 827, 829, 839, 853, 857, 859, 863, 877, 881, 883, 887, 907, 911, 919, 929, 937, 941, 947, 953, 967, 971, 977, 983, 991, 997, 1009, 1013, 1019, 1021, 1031, 1033, 1039, 1049, 1051, 1061, 1063, 1069, 1087, 1091, 1093, 1097, 1103, 1109, 1117, 1123, 1129, 1151, 1153, 1163, 1171, 1181, 1187, 1193, 1201, 1213, 1217, 1223, 1229, 1231, 1237, 1249, 1259, 1277, 1279, 1283, 1289, 1291, 1297, 1301, 1303, 1307, 1319, 1321, 1327, 1361, 1367, 1373, 1381, 1399, 1409, 1423, 1427, 1429, 1433, 1439, 1447, 1451, 1453, 1459, 1471, 1481, 1483, 1487, 1489, 1493, 1499, 1511, 1523, 1531, 1543, 1549, 1553, 1559, 1567, 1571, 1579, 1583, 1597]

/-- The trial-division loop of `dist/bigint-secrets-latest.node.js`:
`for (let i = 0; i < firstPrimes.length && (BigInt(firstPrimes[i]) <= w); i++)`
— scan the table in order while entries do not exceed `w`; return true
on `w === p`, false on `w % p === 0n`; `none` means the loop finished
(or stopped at an entry exceeding `w`) without a verdict and control
falls through to the Miller-Rabin stage. -/
def trialDivision (w : ℤ) : List ℕ → Option Bool
  | [] => none
  | p :: rest =>
    if (p : ℤ) ≤ w then
      if w = (p : ℤ) then some true
      else if w % (p : ℤ) = 0 then some false
      else trialDivision w rest
    else none

/-- `isProbablyPrime(w, iterations)` of
`dist/bigint-secrets-latest.node.js`: same prefilter and Miller-Rabin
loop as `src/main.js`, with the small-prime trial division in between. -/
def isProbablyPrime (w : ℤ) (iterations : ℕ) (s : ℕ → ℕ)
    (pos rbFuel : ℕ) : Option (Bool × ℕ) :=
  if w = 2 then some (true, pos)
  else if w % 2 = 0 ∨ w = 1 then some (false, pos)
  else
    match trialDivision w firstPrimes with
    | some v => some (v, pos)
    | none =>
      let a := (twoFactorAux ((w - 1).natAbs + 1) (w - 1) 0).1
      let m := (w - 1) / 2 ^ a
      mrLoop w m a s rbFuel iterations pos

attribute [local instance] Nat.decidablePrime1

set_option maxRecDepth 8192 in
lemma firstPrimes_pairwise : firstPrimes.Pairwise (· < ·) := by decide

set_option maxRecDepth 8192 in
lemma firstPrimes_length : firstPrimes.length = 250 ∧
    firstPrimes.head? = some 3 ∧ firstPrimes.getLast? = some 1597 := by
  decide

set_option maxRecDepth 8192 in
lemma firstPrimes_no_small_div :
    ∀ p ∈ firstPrimes, ∀ m, m < 41 → 2 ≤ m → m = p ∨ ¬ m ∣ p := by
  decide

set_option maxRecDepth 8192 in
lemma firstPrimes_bounds : ∀ p ∈ firstPrimes, 2 ≤ p ∧ p < 1681 := by
  decide

lemma prime_of_no_small_div (p : ℕ) (h2 : 2 ≤ p) (hlt : p < 1681)
    (h : ∀ m, m < 41 → 2 ≤ m → m = p ∨ ¬ m ∣ p) : Nat.Prime p := by
  rw [Nat.prime_def_le_sqrt]
  refine ⟨h2, fun m hm2 hms hdvd => ?_⟩
  have hsqrt : p.sqrt < 41 := Nat.sqrt_lt.mpr (by omega)
  have hself : p.sqrt < p := Nat.sqrt_lt_self (by omega)
  rcases h m (by omega) hm2 with rfl | hnd
  · omega
  · exact hnd hdvd

lemma firstPrimes_prime : ∀ p ∈ firstPrimes, Nat.Prime p := fun p hp =>
  prime_of_no_small_div p (firstPrimes_bounds p hp).1
    (firstPrimes_bounds p hp).2 (firstPrimes_no_small_div p hp)

set_option maxRecDepth 8192 in
set_option maxHeartbeats 2000000 in
set_option synthInstance.maxHeartbeats 1000000 in
set_option synthInstance.maxSize 4096 in
lemma firstPrimes_complete_aux : ∀ i, i < 7 → ∀ r, r < 256 →
    (256 * i + r) % 2 = 1 → 3 ≤ 256 * i + r → 256 * i + r ≤ 1597 →
    (∃ m, m < 41 ∧ 2 ≤ m ∧ m ∣ (256 * i + r) ∧ m ≠ 256 * i + r) ∨
      (256 * i + r) ∈ firstPrimes := by
  decide

/-- Every odd prime up to 1597 appears in the table (the table is the
complete list of odd primes below 1598). -/
lemma firstPrimes_complete (n : ℕ) (h3 : 3 ≤ n) (h1597 : n ≤ 1597)
    (hodd : n % 2 = 1) (hp : Nat.Prime n) : n ∈ firstPrimes := by
  have hi : n / 256 < 7 := by omega
  have hr : n % 256 < 256 := Nat.mod_lt _ (by norm_num)
  have haux := firstPrimes_complete_aux (n / 256) hi (n % 256) hr
  rw [Nat.div_add_mod] at haux
  rcases haux hodd h3 h1597 with ⟨m, _, hm2, hmdvd, hmne⟩ | hmem
  · rcases hp.eq_one_or_self_of_dvd m hmdvd with rfl | rfl
    · omega
    · exact absurd rfl hmne
  · exact hmem

lemma trialDivision_mem (w : ℤ) :
    ∀ l : List ℕ, l.Pairwise (· < ·) → (∀ p ∈ l, Nat.Prime p) →
      ∀ q ∈ l, (q : ℤ) = w → trialDivision w l = some true := by
  intro l
  induction l with
  | nil => intro _ _ q hq; cases hq
  | cons p t ih =>
    intro hpair hall q hq hqw
    rw [List.pairwise_cons] at hpair
    rcases List.mem_cons.mp hq with rfl | hqt
    · rw [trialDivision, if_pos (le_of_eq hqw), if_pos hqw.symm]
    · have hpq : p < q := hpair.1 q hqt
      have hple : (p : ℤ) ≤ w := by
        rw [← hqw]
        exact_mod_cast le_of_lt hpq
      have hwp : w ≠ (p : ℤ) := by
        rw [← hqw]
        exact_mod_cast (Nat.ne_of_lt hpq).symm
      have hnd : ¬ (p : ℤ) ∣ w := by
        rw [← hqw, Int.natCast_dvd_natCast]
        intro hd
        have hq' : Nat.Prime q := hall q hq
        rcases hq'.eq_one_or_self_of_dvd p hd with rfl | rfl
        · exact absurd (hall 1 (List.mem_cons_self 1 t)).one_lt (by omega)
        · omega
      have hmod : ¬ w % (p : ℤ) = 0 := fun hm =>
        hnd (Int.dvd_of_emod_eq_zero hm)
      rw [trialDivision, if_pos hple, if_neg hwp, if_neg hmod]
      exact ih hpair.2 (fun x hx => hall x (List.mem_cons_of_mem p hx))
        q hqt hqw

lemma trialDivision_dvd (w : ℤ) :
    ∀ l : List ℕ, l.Pairwise (· < ·) →
      ∀ q ∈ l, (q : ℤ) ∣ w → (q : ℤ) < w →
        trialDivision w l = some false := by
  intro l
  induction l with
  | nil => intro _ q hq; cases hq
  | cons p t ih =>
    intro hpair q hq hqdvd hqlt
    rw [List.pairwise_cons] at hpair
    have hpq : p ≤ q := by
      rcases List.mem_cons.mp hq with rfl | hqt
      · exact le_refl _
      · exact le_of_lt (hpair.1 q hqt)
    have hple : (p : ℤ) ≤ w := le_trans (by exact_mod_cast hpq)
      (le_of_lt hqlt)
    have hwp : w ≠ (p : ℤ) := by
      have : (p : ℤ) ≤ (q : ℤ) := by exact_mod_cast hpq
      omega
    rw [trialDivision, if_pos hple, if_neg hwp]
    by_cases hmod : w % (p : ℤ) = 0
    · rw [if_pos hmod]
    · rw [if_neg hmod]
      rcases List.mem_cons.mp hq with rfl | hqt
      · exact absurd (Int.emod_eq_zero_of_dvd hqdvd) hmod
      · exact ih hpair.2 q hqt hqdvd hqlt

end Dist

/-- C4: for every odd candidate `w > 2` that survives the prefilter,
the trial-division stage scans the fixed ordered table of the 250 primes
3, 5, ..., 1597 in increasing order, only considering entries `p ≤ w`
(the loop stops once entries exceed `w`, returning no verdict): it
returns true as soon as `w` equals a table prime, and false as soon as
some table prime `p < w` divides `w`. -/
theorem c4_trialDivision (w : ℤ) (_h2 : 2 < w) (_hodd : w % 2 = 1) :
    (Dist.firstPrimes.length = 250 ∧
        Dist.firstPrimes.head? = some 3 ∧
        Dist.firstPrimes.getLast? = some 1597 ∧
        Dist.firstPrimes.Pairwise (· < ·) ∧
        ∀ p ∈ Dist.firstPrimes, Nat.Prime p) ∧
      (∀ q ∈ Dist.firstPrimes, (q : ℤ) = w →
        Dist.trialDivision w Dist.firstPrimes = some true) ∧
      (∀ q ∈ Dist.firstPrimes, (q : ℤ) ∣ w → (q : ℤ) < w →
        Dist.trialDivision w Dist.firstPrimes = some false) :=
  ⟨⟨Dist.firstPrimes_length.1, Dist.firstPrimes_length.2.1,
      Dist.firstPrimes_length.2.2, Dist.firstPrimes_pairwise,
      Dist.firstPrimes_prime⟩,
    fun q hq hqw => Dist.trialDivision_mem w Dist.firstPrimes
      Dist.firstPrimes_pairwise Dist.firstPrimes_prime q hq hqw,
    fun q hq hdvd hlt => Dist.trialDivision_dvd w Dist.firstPrimes
      Dist.firstPrimes_pairwise q hq hdvd hlt⟩

/-- Witness for C4: at `w = 7` (a table prime) the scan returns true; at
`w = 9` (odd composite with table factor `3 < 9`) it returns false. -/
theorem c4_trialDivision_witness :
    ((2 : ℤ) < 7 ∧ (7 : ℤ) % 2 = 1 ∧ (7 : ℕ) ∈ Dist.firstPrimes ∧
        Dist.trialDivision 7 Dist.firstPrimes = some true) ∧
      ((2 : ℤ) < 9 ∧ (9 : ℤ) % 2 = 1 ∧ (3 : ℕ) ∈ Dist.firstPrimes ∧
        Dist.trialDivision 9 Dist.firstPrimes = some false) :=
  ⟨⟨by decide, by decide, by decide,
      (c4_trialDivision 7 (by decide) (by decide)).2.1 7 (by decide)
        (by decide)⟩,
    ⟨by decide, by decide, by decide,
      (c4_trialDivision 9 (by decide) (by decide)).2.2 3 (by decide)
        (by decide) (by decide)⟩⟩

/-- C10: for every odd `w` with `3 ≤ w ≤ 1597` the verdict of the dist
bundle's `isProbablyPrime` is decided by the trial-division table alone:
it equals the actual primality of `w`, is identical for any two entropy
streams (and any iterations and fuel), and consumes no random witness
(the cursor is returned unchanged). -/
theorem c10_table_decides_small (w : ℤ) (h3 : 3 ≤ w) (h1597 : w ≤ 1597)
    (hodd : w % 2 = 1) (iterations : ℕ) (s : ℕ → ℕ) (pos rbFuel : ℕ) :
    Dist.isProbablyPrime w iterations s pos rbFuel =
      some (decide (Nat.Prime w.toNat), pos) := by
  rw [Dist.isProbablyPrime, if_neg (by omega), if_neg (by omega)]
  by_cases hp : Nat.Prime w.toNat
  · have hmem : w.toNat ∈ Dist.firstPrimes :=
      Dist.firstPrimes_complete w.toNat (by omega) (by omega) (by omega) hp
    have ht : Dist.trialDivision w Dist.firstPrimes = some true :=
      Dist.trialDivision_mem w Dist.firstPrimes Dist.firstPrimes_pairwise
        Dist.firstPrimes_prime w.toNat hmem (by omega)
    rw [ht]
    simp [hp]
  · have hne1 : w.toNat ≠ 1 := by omega
    have hmf : Nat.Prime w.toNat.minFac := Nat.minFac_prime hne1
    have hdvd : w.toNat.minFac ∣ w.toNat := Nat.minFac_dvd w.toNat
    have hlt : w.toNat.minFac < w.toNat := by
      have hle : w.toNat.minFac ≤ w.toNat := Nat.minFac_le (by omega)
      rcases lt_or_eq_of_le hle with h | h
      · exact h
      · exact absurd (Nat.prime_def_minFac.mpr ⟨by omega, h⟩) hp
    have hm2 : w.toNat.minFac ≠ 2 := by
      intro he
      have h2d : 2 ∣ w.toNat := he ▸ hdvd
      omega
    have hmodd : w.toNat.minFac % 2 = 1 := by
      rcases hmf.eq_two_or_odd with h | h
      · exact absurd h hm2
      · exact h
    have hmem : w.toNat.minFac ∈ Dist.firstPrimes :=
      Dist.firstPrimes_complete w.toNat.minFac
        (by have := hmf.two_le; omega) (by omega) hmodd hmf
    have ht : Dist.trialDivision w Dist.firstPrimes = some false := by
      apply Dist.trialDivision_dvd w Dist.firstPrimes
        Dist.firstPrimes_pairwise w.toNat.minFac hmem
      · have hc : (w.toNat.minFac : ℤ) ∣ (w.toNat : ℤ) :=
          Int.natCast_dvd_natCast.mpr hdvd
        have hw : ((w.toNat : ℕ) : ℤ) = w := by omega
        rwa [hw] at hc
      · omega
    rw [ht]
    simp [hp]

/-- Witness for C10 at `w = 9` (odd composite) and `w = 13` (odd prime);
the verdicts are table-decided and leave the cursor unchanged. -/
theorem c10_table_decides_small_witness :
    ((3 : ℤ) ≤ 9 ∧ (9 : ℤ) ≤ 1597 ∧ (9 : ℤ) % 2 = 1 ∧
        Dist.isProbablyPrime 9 5 (fun _ => 0) 0 0 =
          some (decide (Nat.Prime (9 : ℤ).toNat), 0) ∧
        Dist.isProbablyPrime 9 5 (fun _ => 0) 0 0 = some (false, 0)) ∧
      ((3 : ℤ) ≤ 13 ∧ (13 : ℤ) ≤ 1597 ∧ (13 : ℤ) % 2 = 1 ∧
        Dist.isProbablyPrime 13 5 (fun _ => 0) 0 0 =
          some (decide (Nat.Prime (13 : ℤ).toNat), 0) ∧
        Dist.isProbablyPrime 13 5 (fun _ => 0) 0 0 = some (true, 0)) :=
  ⟨⟨by decide, by decide, by decide,
      c10_table_decides_small 9 (by decide) (by decide) (by decide) 5
        (fun _ => 0) 0 0,
      by decide⟩,
    ⟨by decide, by decide, by decide,
      c10_table_decides_small 13 (by decide) (by decide) (by decide) 5
        (fun _ => 0) 0 0,
      by decide⟩⟩

end BigintSecrets
